import Mathlib

set_option maxRecDepth 10000

/-!
# Verification of the IEEE-754 converter engine (`src/streamlit_app.py`)

Shallow embedding of the numeric conversion engine of the Streamlit
IEEE-754 application.  Python strings are modelled as `List Char` and
Python `int` as `Nat`/`Int`.  The program parses decimal input with
`decimal.Decimal` after setting the context to 80 significant digits;
a `Decimal` value is exactly `±mant / 10^scale` for naturals `mant`,
`scale`, and every arithmetic step the engine performs on it
(`dec - int_part`, `frac * 2`, `frac - 1`, comparison with 0 and 1) is
exact at that precision, so the embedding carries the pair
`(mant, scale)` and performs the same steps with exact natural-number
arithmetic; the one inexact site, `int(dec // 1)`, raises an uncaught
`decimal.InvalidOperation` (`DivisionImpossible`) when the integer
part needs more than the context's 80 digits, which the embedding
models with an explicit guard.  The binary-fraction parser produces a
Python value that is an exact `int` on the dotless and empty-fraction
paths and a binary64 `float` otherwise; `parse_binary_fraction_fp`
models the float arithmetic faithfully with the `Fp` type
(a significand–exponent pair) and `fpRound`, rounding each addition to
53 significant bits with round-to-nearest, ties to even — on every
value this program can reach (non-negative addends below `2^1024`,
terms `2^-(i+1)` underflowing to zero past `i + 1 = 1074`, partial
sums whose significant bits always fit 53 bits whenever the exponent
is below the subnormal threshold) this coincides with IEEE-754
binary64.  `parse_binary_fraction` and `fracVal` state the idealized
exact-`ℚ` semantics that the specification's value formula describes,
for comparison with the float-level model.  Every `raise ValueError`
site is modelled as an `Except.error` carrying the error kind the
specification assigns to that message.
-/

namespace IEEEApp

/-- The error kinds of the engine.  The Python code raises `ValueError`
with distinct messages; the specification names them `InvalidFormat`
(malformed decimal / hex / binary-fraction text), `CannotNormalizeZero`
(line 141) and `ExponentOutOfRange` (line 149).  Two further failures
escape the engine as exceptions other than `ValueError` (the app's
generic handler reports them as unexpected errors): `invalidOperation`
is the uncaught `decimal.InvalidOperation` (`DivisionImpossible`) that
`int(dec // 1)` at line 119 raises under `getcontext().prec = 80` when
the integer part needs more than 80 digits, and `overflowError` is the
uncaught `OverflowError` that `int_value + frac_value` at line 105
raises when converting an integer of magnitude beyond the `float`
range. -/
inductive ConvError : Type where
  | invalidFormat : ConvError
  | cannotNormalizeZero : ConvError
  | exponentOutOfRange : ConvError
  | invalidOperation : ConvError
  | overflowError : ConvError
deriving DecidableEq

instance {ε α : Type} [DecidableEq ε] [DecidableEq α] :
    DecidableEq (Except ε α) := fun
  | .error a, .error b =>
    if h : a = b then .isTrue (by rw [h])
    else .isFalse (by intro hc; cases hc; exact h rfl)
  | .error _, .ok _ => .isFalse (by intro hc; cases hc)
  | .ok _, .error _ => .isFalse (by intro hc; cases hc)
  | .ok a, .ok b =>
    if h : a = b then .isTrue (by rw [h])
    else .isFalse (by intro hc; cases hc; exact h rfl)

/-- A parsed `decimal.Decimal` value: `(-1)^neg * mant / 10^scale`.
This is exactly the set of values `Decimal(value_str)` can produce;
`neg = true` with `mant = 0` is Python's `Decimal("-0")`, which
compares equal to zero. -/
structure DecValue : Type where
  neg : Bool
  mant : Nat
  scale : Nat
deriving DecidableEq

/-- Value of a binary digit character, as used by Python's `int(s, 2)`
on validated strings ('1' ↦ 1; the engine only applies it to strings
of '0'/'1'). -/
def binDigit (c : Char) : Nat :=
  if c = '1' then 1 else 0

/-- Python `int(s, 2)` on a string of binary digit characters
(most significant first); `binToNat [] = 0` matches the guarded
`int(int_part_str, 2) if int_part_str else 0`. -/
def binToNat (l : List Char) : Nat :=
  l.foldl (fun a c => 2 * a + binDigit c) 0

/-- Value of a hexadecimal digit character, as used by Python's
`int(s, 16)` (both letter cases; the engine validates before calling). -/
def hexDigitVal (c : Char) : Nat :=
  if c = '1' then 1 else if c = '2' then 2 else if c = '3' then 3
  else if c = '4' then 4 else if c = '5' then 5 else if c = '6' then 6
  else if c = '7' then 7 else if c = '8' then 8 else if c = '9' then 9
  else if c = 'a' ∨ c = 'A' then 10 else if c = 'b' ∨ c = 'B' then 11
  else if c = 'c' ∨ c = 'C' then 12 else if c = 'd' ∨ c = 'D' then 13
  else if c = 'e' ∨ c = 'E' then 14 else if c = 'f' ∨ c = 'F' then 15
  else 0

/-- Python `int(s, 16)` on a string of hex digit characters. -/
def hexToNat (l : List Char) : Nat :=
  l.foldl (fun a c => 16 * a + hexDigitVal c) 0

/-- Fuelled worker for `natToBinDigits`; the fuel only forces
termination and any fuel `≥ n` gives the same result
(`binDigitsGo_fuel`). -/
def binDigitsGo : Nat → Nat → List Char
  | 0, _ => []
  | fuel + 1, n =>
    if n = 0 then []
    else binDigitsGo fuel (n / 2) ++ [if n % 2 = 1 then '1' else '0']

/-- Python `bin(n)[2:]` for `n ≠ 0`: the binary digits of `n`, most
significant first, no leading zeros (`natToBinDigits 0 = []`). -/
def natToBinDigits (n : Nat) : List Char :=
  binDigitsGo n n

/-- Uppercase hexadecimal digit character for `n < 16` (Python `"%X"`). -/
def hexDigitChar (n : Nat) : Char :=
  if n = 0 then '0' else if n = 1 then '1' else if n = 2 then '2'
  else if n = 3 then '3' else if n = 4 then '4' else if n = 5 then '5'
  else if n = 6 then '6' else if n = 7 then '7' else if n = 8 then '8'
  else if n = 9 then '9' else if n = 10 then 'A' else if n = 11 then 'B'
  else if n = 12 then 'C' else if n = 13 then 'D' else if n = 14 then 'E'
  else 'F'

/-- Fuelled worker for `natToHexDigits`. -/
def hexDigitsGo : Nat → Nat → List Char
  | 0, _ => []
  | fuel + 1, n =>
    if n = 0 then []
    else hexDigitsGo fuel (n / 16) ++ [hexDigitChar (n % 16)]

/-- The uppercase hexadecimal digits of `n`, most significant first,
no leading zeros (`natToHexDigits 0 = []`), as produced by Python's
`"%X"` before padding. -/
def natToHexDigits (n : Nat) : List Char :=
  hexDigitsGo n n

/-- Python `f"{n:032b}"`: binary digits zero-padded on the left to
(at least) 32 characters. -/
def fmt032b (n : Nat) : List Char :=
  List.replicate (32 - (natToBinDigits n).length) '0' ++ natToBinDigits n

/-- Python `f"{n:08b}"`: binary digits zero-padded on the left to
(at least) 8 characters. -/
def fmt08b (n : Nat) : List Char :=
  List.replicate (8 - (natToBinDigits n).length) '0' ++ natToBinDigits n

/-- Python `f"{n:b}"` (no padding; `0` renders as `"0"`). -/
def fmtb (n : Nat) : List Char :=
  if n = 0 then ['0'] else natToBinDigits n

/-- Python `f"{n:08X}"`: uppercase hex digits zero-padded on the left
to (at least) 8 characters. -/
def fmt08X (n : Nat) : List Char :=
  List.replicate (8 - (natToHexDigits n).length) '0' ++ natToHexDigits n

/-- Python `str.strip()`: remove leading and trailing whitespace. -/
def pytrim (l : List Char) : List Char :=
  ((l.dropWhile Char.isWhitespace).reverse.dropWhile Char.isWhitespace).reverse

/-- The fractional-expansion loop of `decimal_to_ieee_steps`
(lines 124–133), on the exact fraction `num / den` (the program's
`Decimal` fraction `frac_part`, with `den = 10^scale`): up to `fuel`
iterations of «multiply the remaining fraction by 2; emit '1' and
subtract 1 if the result is ≥ 1, else emit '0'; stop after emitting
when the remainder is exactly 0».  The program runs it with
`fuel = 40` (`for _ in range(40)`). -/
def fracBits (den : Nat) : Nat → Nat → List Char
  | _, 0 => []
  | num, fuel + 1 =>
    let num2 := 2 * num
    if den ≤ num2 then
      (if num2 - den = 0 then ['1'] else '1' :: fracBits den (num2 - den) fuel)
    else
      (if num2 = 0 then ['0'] else '0' :: fracBits den num2 fuel)

/-- The integer part of a `DecValue`'s magnitude: the exact quotient
that Python's `int(dec // 1)` at line 119 produces when it does not
raise.  `decimal_normalize` models the raise itself (the quotient is
only exact at context precision 80 while it has at most 80 digits;
beyond that, line 119 raises `decimal.InvalidOperation`). -/
def decIntPart (v : DecValue) : Nat :=
  v.mant / 10 ^ v.scale

/-- The fractional-part numerator of a `DecValue`'s magnitude over
`10^scale` (Python `frac_part = dec - int_part` at line 120). -/
def decFracNum (v : DecValue) : Nat :=
  v.mant % 10 ^ v.scale

/-- The sign bit recorded at lines 114–117 (`1 if dec < 0 else 0`;
`Decimal("-0") < 0` is false). -/
def decSign (v : DecValue) : Nat :=
  if v.neg ∧ v.mant ≠ 0 then 1 else 0

/-- The fractional bit string computed at lines 124–133 for a
`DecValue`'s magnitude. -/
def decFracBits (v : DecValue) : List Char :=
  fracBits (10 ^ v.scale) (decFracNum v) 40

/-- Lines 114–143 of `decimal_to_ieee_steps`: record the sign, split
the magnitude into integer and fractional part, expand both to binary
(`int_bin = bin(int_part)[2:] if int_part != 0 else '0'`), and
normalize to `1.mantissa × 2^exponent`.  Returns
(sign, unbiased exponent, raw mantissa bits) or the
`CannotNormalizeZero` failure of line 141.  Before anything else,
`int_part = int(dec // 1)` (line 119) raises `decimal.InvalidOperation`
(`DivisionImpossible`) under the context precision 80 whenever the
integer quotient needs more than 80 digits, i.e. is at least
`10^80`; that uncaught raise is the `invalidOperation` branch. -/
def decimal_normalize (v : DecValue) : Except ConvError (Nat × Int × List Char) :=
  let int_part := decIntPart v
  if 10 ^ 80 ≤ int_part then .error .invalidOperation
  else
    let int_bin : List Char :=
      if int_part ≠ 0 then natToBinDigits int_part else ['0']
    let frac_bits := decFracBits v
    if int_part ≠ 0 then
      .ok (decSign v, (int_bin.length : Int) - 1, int_bin.drop 1 ++ frac_bits)
    else
      match frac_bits.findIdx? (· = '1') with
      | none => .error .cannotNormalizeZero
      | some first_one =>
        .ok (decSign v, -((first_one : Int) + 1), frac_bits.drop (first_one + 1))

/-- `decimal_to_ieee_steps` (lines 107–167) on the already-parsed
decimal value: normalize, add the bias 127, validate
`0 ≤ exponent_biased ≤ 255` (line 148), truncate/pad the mantissa to
23 bits (`mantissa_raw[:23].ljust(23, '0')`, line 152) and assemble
the 32-bit string and its `0x`-prefixed uppercase hex form
(lines 154–155; the HTML narration of the Python function is
presentation and is not modelled). -/
def decimal_to_ieee_steps (v : DecValue) : Except ConvError (List Char × List Char) :=
  match decimal_normalize v with
  | .error e => .error e
  | .ok (sign, exponent_unbiased, mantissa_raw) =>
    let exponent_biased : Int := exponent_unbiased + 127
    if 0 ≤ exponent_biased ∧ exponent_biased ≤ 255 then
      let exponent_bits := fmt08b exponent_biased.toNat
      let m23 := mantissa_raw.take 23
      let mantissa := m23 ++ List.replicate (23 - m23.length) '0'
      let bits := fmtb sign ++ exponent_bits ++ mantissa
      .ok (bits, '0' :: 'x' :: fmt08X (binToNat bits))
    else
      .error .exponentOutOfRange

/-- Membership test of `parse_hex_input` line 173:
`c in '0123456789abcdef'`. -/
def isHexLower (c : Char) : Bool :=
  c = '0' ∨ c = '1' ∨ c = '2' ∨ c = '3' ∨ c = '4' ∨ c = '5' ∨ c = '6' ∨
  c = '7' ∨ c = '8' ∨ c = '9' ∨ c = 'a' ∨ c = 'b' ∨ c = 'c' ∨ c = 'd' ∨
  c = 'e' ∨ c = 'f'

/-- `parse_hex_input` (lines 169–188): strip, lowercase, drop an
optional `0x` front marker, validate «exactly 8 hex digits», and
decode to the 32-bit string `f"{as_int:032b}"`.  The returned native
float (`ieee_bits_to_float`, a hardware reinterpretation) and the HTML
narration are not modelled; the bit string is the value the engine
passes on. -/
def parse_hex_input (s : List Char) : Except ConvError (List Char) :=
  let v0 := (pytrim s).map Char.toLower
  let v := if v0.take 2 = ['0', 'x'] then v0.drop 2 else v0
  if v.length = 8 ∧ v.all isHexLower then
    .ok (fmt032b (hexToNat v))
  else
    .error .invalidFormat

/-- Re-encoding of a bit string as hex, `f"0x{int(bits, 2):08X}"`
(line 178 inside `parse_hex_input`, recomputed identically at line 208
of the app when displaying hex input). -/
def hexEncode (bits : List Char) : List Char :=
  '0' :: 'x' :: fmt08X (binToNat bits)

/-- Membership test of `parse_binary_fraction` line 100: `c in '01'`. -/
def isBinDigit (c : Char) : Bool :=
  c = '0' ∨ c = '1'

/-- Python `value.split('.')`: split on every dot. -/
def splitDots : List Char → List (List Char)
  | [] => [[]]
  | c :: rest =>
    match splitDots rest with
    | [] => [[]]
    | p :: ps => if c = '.' then [] :: p :: ps else (c :: p) :: ps

/-- The fractional sum of `parse_binary_fraction` line 104:
`sum(int(b)*(2**-(i+1)) for i, b in enumerate(frac_part_str))`. -/
def fracVal (l : List Char) : ℚ :=
  (l.enum.map (fun p => (binDigit p.2 : ℚ) * (2 : ℚ) ^ (-((p.1 : ℤ) + 1)))).sum

/-- The sign factor of `parse_binary_fraction` lines 88–93
(`sign = -1` for a leading '-', else `1`). -/
def pbSign (value : List Char) : ℚ :=
  match value with
  | '+' :: _ => 1
  | '-' :: _ => -1
  | _ => 1

/-- The remainder of `parse_binary_fraction` lines 88–93 after
stripping one leading sign character (`value = value[1:]`). -/
def pbRest (value : List Char) : List Char :=
  match value with
  | '+' :: r => r
  | '-' :: r => r
  | _ => value

/-- `parse_binary_fraction` (lines 83–105): strip, reject the empty
string, strip one leading sign, split on dots (a split into more than
two pieces raises Python's unpacking `ValueError` — malformed text
like the other `raise` sites of this function, hence `invalidFormat`),
validate that all remaining characters are '0'/'1', and return
`sign * (int_value + frac_value)` (`frac_value` is `0` when there is
no dot).  This version idealizes the numeric result as an exact `ℚ`
value; it is used only for the acceptance/error-behaviour claims,
whose conclusions do not depend on rounding (their accepted values are
`0` here).  `parse_binary_fraction_fp` below models the same source
lines with the numeric result at Python's actual types (exact `int`,
or a binary64 float that rounds) and is used for the value claims. -/
def parse_binary_fraction (s : List Char) : Except ConvError ℚ :=
  let value := pytrim s
  if value = [] then .error .invalidFormat
  else
    match splitDots (pbRest value) with
    | [int_part_str] =>
      if int_part_str.all isBinDigit then
        .ok (pbSign value * ((binToNat int_part_str : ℚ) + 0))
      else .error .invalidFormat
    | [int_part_str, frac_part_str] =>
      if (int_part_str ++ frac_part_str).all isBinDigit then
        .ok (pbSign value * ((binToNat int_part_str : ℚ) + fracVal frac_part_str))
      else .error .invalidFormat
    | _ => .error .invalidFormat

/-- The bit length of `n` (number of binary digits, 0 for 0);
provably equal to `Nat.size` (`natToBinDigits_length_eq_size`), but
kernel-computable. -/
def bitLen (n : Nat) : Nat :=
  (natToBinDigits n).length

/-- A finite Python `float` (IEEE-754 binary64) value `m * 2^e`.  The
representation is not kept canonical; all operations below round their
exact result to 53 significant bits, which coincides with binary64
rounding for every value the modelled code can produce: results in the
normal range round identically, and the subnormal results reachable
here (sums of terms `2^-k` with `k ≤ 1074`) span at most 53 bits and
are exact in both. -/
structure Fp : Type where
  m : Int
  e : Int
deriving DecidableEq

/-- The real value of a modelled float (used only in statements). -/
def Fp.toRat (x : Fp) : ℚ :=
  (x.m : ℚ) * (2 : ℚ) ^ x.e

/-- Round the exact value `M * 2^e` to 53 significant bits,
round-to-nearest with ties to the even significand (IEEE-754
`roundTiesToEven`, as Python floats use). -/
def fpRound (M : Int) (e : Int) : Fp :=
  if M = 0 then ⟨0, 0⟩
  else
    let n := M.natAbs
    let s := bitLen n
    if s ≤ 53 then ⟨M, e⟩
    else
      let shift := s - 53
      let q := n / 2 ^ shift
      let r := n % 2 ^ shift
      let half := 2 ^ (shift - 1)
      let q2 := if r < half then q
                else if half < r then q + 1
                else (if q % 2 = 0 then q else q + 1)
      let q3e : Nat × Int :=
        if q2 = 2 ^ 53 then (2 ^ 52, e + shift + 1) else (q2, e + shift)
      ⟨if M < 0 then -(q3e.1 : Int) else (q3e.1 : Int), q3e.2⟩

/-- Python float addition: the exact sum, rounded. -/
def fpAdd (x y : Fp) : Fp :=
  let e := min x.e y.e
  fpRound (x.m * 2 ^ (x.e - e).toNat + y.m * 2 ^ (y.e - e).toNat) e

/-- The term `int(b) * (2**-(i+1))` of line 104 as a Python float:
`2**-(i+1)` is exactly representable for `i+1 ≤ 1074` (and the C
library `pow` returns it exactly); for `i+1 ≥ 1075` it underflows to
`0.0` (`2^-1075` is a tie to the even `0.0`, smaller values are below
half the least subnormal).  Multiplying by the digit 0 or 1 is
exact. -/
def fpTerm (i : Nat) (b : Char) : Fp :=
  if i + 1 ≤ 1074 then ⟨binDigit b, -((i : Int) + 1)⟩ else ⟨0, 0⟩

/-- Line 104, `sum(int(b)*(2**-(i+1)) for i, b in enumerate(s))`, for
a non-empty digit string: Python's `sum` adds the float terms left to
right starting from 0, rounding at every step. -/
def fpFracVal (f : List Char) : Fp :=
  (f.enum.map (fun p => fpTerm p.1 p.2)).foldl fpAdd ⟨0, 0⟩

/-- Python `sign * float` for `sign ∈ {1, -1}`: exact. -/
def fpScale (s : Int) (x : Fp) : Fp :=
  ⟨s * x.m, x.e⟩

/-- Whether a rounded value has magnitude at least `2^1024`, i.e. lies
beyond the largest finite binary64 value. -/
def fpOverflow (x : Fp) : Bool :=
  if x.e < 0 then false else 2 ^ 1024 ≤ x.m.natAbs * 2 ^ x.e.toNat

/-- Python's int-to-float conversion (`PyLong_AsDouble`, invoked by
`int_value + frac_value` at line 105): correctly rounded, raising
`OverflowError` when the rounded magnitude reaches `2^1024`. -/
def pyFloatOfInt (n : Int) : Option Fp :=
  let r := fpRound n 0
  if fpOverflow r then none else some r

/-- The numeric result of `parse_binary_fraction`: Python returns an
`int` when no float enters the computation and a `float` otherwise. -/
inductive PyNum : Type where
  | intVal : Int → PyNum
  | floatVal : Fp → PyNum
deriving DecidableEq

/-- The sign factor of lines 88–93 as the Python `int` it is
(`1` or `-1`). -/
def pbSignInt (value : List Char) : Int :=
  match value with
  | '+' :: _ => 1
  | '-' :: _ => -1
  | _ => 1

/-- `parse_binary_fraction` (lines 83–105) again, with the numeric
result modelled at Python's actual numeric types.  `sum` of an empty
sequence is the `int` 0 and `int + int` stays an `int`, so inputs
without fractional digits (no dot, or nothing after the dot) are
computed exactly in integers; with at least one fractional digit every
term of line 104 is a float, `int_value` is converted to float by the
addition at line 105 (raising `OverflowError` beyond the float range),
and each addition rounds to binary64. -/
def parse_binary_fraction_fp (s : List Char) : Except ConvError PyNum :=
  let value := pytrim s
  if value = [] then .error .invalidFormat
  else
    match splitDots (pbRest value) with
    | [int_part_str] =>
      if int_part_str.all isBinDigit then
        .ok (.intVal (pbSignInt value * ((binToNat int_part_str : Int) + 0)))
      else .error .invalidFormat
    | [int_part_str, frac_part_str] =>
      if (int_part_str ++ frac_part_str).all isBinDigit then
        if frac_part_str = [] then
          .ok (.intVal (pbSignInt value * ((binToNat int_part_str : Int) + 0)))
        else
          match pyFloatOfInt (binToNat int_part_str) with
          | none => .error .overflowError
          | some xi =>
            .ok (.floatVal (fpScale (pbSignInt value)
                  (fpAdd xi (fpFracVal frac_part_str))))
      else .error .invalidFormat
    | _ => .error .invalidFormat

/-! ## Lemmas about the binary digit expansion -/

theorem binDigitsGo_zero (fuel : Nat) : binDigitsGo fuel 0 = [] := by
  cases fuel <;> simp [binDigitsGo]

theorem binDigitsGo_fuel :
    ∀ n f1 f2, n ≤ f1 → n ≤ f2 → binDigitsGo f1 n = binDigitsGo f2 n := by
  intro n
  induction n using Nat.strong_induction_on with
  | _ n ih =>
    intro f1 f2 h1 h2
    match n, f1, f2 with
    | 0, f1, f2 => rw [binDigitsGo_zero, binDigitsGo_zero]
    | n + 1, f1 + 1, f2 + 1 =>
      simp only [binDigitsGo, if_neg (Nat.succ_ne_zero n)]
      rw [ih ((n + 1) / 2) (by omega) f1 f2 (by omega) (by omega)]

theorem natToBinDigits_eq (n : Nat) (h : n ≠ 0) :
    natToBinDigits n =
      natToBinDigits (n / 2) ++ [if n % 2 = 1 then '1' else '0'] := by
  obtain ⟨m, rfl⟩ : ∃ m, n = m + 1 := ⟨n - 1, by omega⟩
  show binDigitsGo (m + 1) (m + 1) = _
  simp only [binDigitsGo, if_neg h]
  rw [binDigitsGo_fuel ((m + 1) / 2) m ((m + 1) / 2) (by omega) (by omega)]
  rfl

theorem natToBinDigits_zero : natToBinDigits 0 = [] := rfl

theorem binDigit_le_one (c : Char) : binDigit c ≤ 1 := by
  unfold binDigit; split <;> omega

theorem binToNat_append_singleton (l : List Char) (c : Char) :
    binToNat (l ++ [c]) = 2 * binToNat l + binDigit c := by
  simp [binToNat, List.foldl_append]

theorem binToNat_natToBinDigits (n : Nat) :
    binToNat (natToBinDigits n) = n := by
  induction n using Nat.strong_induction_on with
  | _ n ih =>
    rcases eq_or_ne n 0 with rfl | h
    · rfl
    · rw [natToBinDigits_eq n h, binToNat_append_singleton, ih (n / 2) (by omega)]
      have hb : binDigit (if n % 2 = 1 then '1' else '0') = n % 2 := by
        rcases Nat.mod_two_eq_zero_or_one n with h2 | h2 <;> rw [h2] <;> rfl
      rw [hb]
      omega

theorem binToNat_foldl_lt :
    ∀ (l : List Char) (a : Nat),
      l.foldl (fun a c => 2 * a + binDigit c) a < (a + 1) * 2 ^ l.length := by
  intro l
  induction l with
  | nil => intro a; simpa using Nat.lt_succ_self a
  | cons c l ih =>
    intro a
    have h1 : binDigit c ≤ 1 := binDigit_le_one c
    have h2 := ih (2 * a + binDigit c)
    have h3 : (2 * a + binDigit c + 1) * 2 ^ l.length ≤ (a + 1) * 2 ^ (l.length + 1) := by
      have h4 : 2 * a + binDigit c + 1 ≤ 2 * (a + 1) := by omega
      calc (2 * a + binDigit c + 1) * 2 ^ l.length
          ≤ 2 * (a + 1) * 2 ^ l.length := Nat.mul_le_mul_right _ h4
        _ = (a + 1) * 2 ^ (l.length + 1) := by ring
    simp only [List.foldl_cons, List.length_cons]
    exact lt_of_lt_of_le h2 h3

theorem binToNat_lt (l : List Char) : binToNat l < 2 ^ l.length := by
  simpa using binToNat_foldl_lt l 0

theorem binToNat_replicate_append (k : Nat) (l : List Char) :
    binToNat (List.replicate k '0' ++ l) = binToNat l := by
  induction k with
  | zero => rfl
  | succ k ih =>
    have hd : binDigit '0' = 0 := rfl
    simpa [binToNat, List.replicate_succ, hd] using ih

theorem natToBinDigits_length_le :
    ∀ k n, n < 2 ^ k → (natToBinDigits n).length ≤ k := by
  intro k
  induction k with
  | zero =>
    intro n h
    interval_cases n
    simp [natToBinDigits_zero]
  | succ k ih =>
    intro n h
    rcases eq_or_ne n 0 with rfl | hn
    · simp [natToBinDigits_zero]
    · rw [natToBinDigits_eq n hn]
      have hdiv : n / 2 < 2 ^ k := by
        rw [Nat.div_lt_iff_lt_mul (by omega)]
        calc n < 2 ^ (k + 1) := h
          _ = 2 ^ k * 2 := by rw [pow_succ]
      have := ih (n / 2) hdiv
      simp only [List.length_append, List.length_singleton]
      omega

theorem natToBinDigits_length_eq_size (n : Nat) :
    (natToBinDigits n).length = Nat.size n := by
  refine Nat.le_antisymm ?_ ?_
  · exact natToBinDigits_length_le (Nat.size n) n (Nat.lt_size_self n)
  · refine Nat.size_le.mpr ?_
    calc n = binToNat (natToBinDigits n) := (binToNat_natToBinDigits n).symm
      _ < 2 ^ (natToBinDigits n).length := binToNat_lt _

theorem natToBinDigits_chars :
    ∀ n, ∀ c ∈ natToBinDigits n, c = '0' ∨ c = '1' := by
  intro n
  induction n using Nat.strong_induction_on with
  | _ n ih =>
    intro c hc
    rcases eq_or_ne n 0 with rfl | h
    · simp [natToBinDigits_zero] at hc
    · rw [natToBinDigits_eq n h] at hc
      rcases List.mem_append.mp hc with h1 | h1
      · exact ih (n / 2) (by omega) c h1
      · rcases List.mem_singleton.mp h1 with rfl
        split <;> simp

theorem natToBinDigits_head (n : Nat) :
    n ≠ 0 → ∃ t, natToBinDigits n = '1' :: t := by
  induction n using Nat.strong_induction_on with
  | _ n ih =>
    intro h
    rcases lt_or_ge n 2 with h2 | h2
    · interval_cases n
      · exact absurd rfl h
      · exact ⟨[], rfl⟩
    · rw [natToBinDigits_eq n (by omega)]
      obtain ⟨t, ht⟩ := ih (n / 2) (by omega) (by omega)
      exact ⟨t ++ [if n % 2 = 1 then '1' else '0'], by rw [ht]; rfl⟩

/-! ## Lemmas about the hexadecimal digit expansion -/

/-- The canonical uppercase hexadecimal alphabet. -/
def hexUpperDigits : List Char :=
  ['0', '1', '2', '3', '4', '5', '6', '7', '8', '9', 'A', 'B', 'C', 'D', 'E', 'F']

theorem hexDigitsGo_zero (fuel : Nat) : hexDigitsGo fuel 0 = [] := by
  cases fuel <;> simp [hexDigitsGo]

theorem hexDigitsGo_fuel :
    ∀ n f1 f2, n ≤ f1 → n ≤ f2 → hexDigitsGo f1 n = hexDigitsGo f2 n := by
  intro n
  induction n using Nat.strong_induction_on with
  | _ n ih =>
    intro f1 f2 h1 h2
    match n, f1, f2 with
    | 0, f1, f2 => rw [hexDigitsGo_zero, hexDigitsGo_zero]
    | n + 1, f1 + 1, f2 + 1 =>
      simp only [hexDigitsGo, if_neg (Nat.succ_ne_zero n)]
      rw [ih ((n + 1) / 16) (by omega) f1 f2 (by omega) (by omega)]

theorem natToHexDigits_eq (n : Nat) (h : n ≠ 0) :
    natToHexDigits n = natToHexDigits (n / 16) ++ [hexDigitChar (n % 16)] := by
  obtain ⟨m, rfl⟩ : ∃ m, n = m + 1 := ⟨n - 1, by omega⟩
  show hexDigitsGo (m + 1) (m + 1) = _
  simp only [hexDigitsGo, if_neg h]
  rw [hexDigitsGo_fuel ((m + 1) / 16) m ((m + 1) / 16) (by omega) (by omega)]
  rfl

theorem natToHexDigits_zero : natToHexDigits 0 = [] := rfl

theorem isHexLower_iff (c : Char) :
    isHexLower c = true ↔
      (c = '0' ∨ c = '1' ∨ c = '2' ∨ c = '3' ∨ c = '4' ∨ c = '5' ∨ c = '6' ∨
       c = '7' ∨ c = '8' ∨ c = '9' ∨ c = 'a' ∨ c = 'b' ∨ c = 'c' ∨ c = 'd' ∨
       c = 'e' ∨ c = 'f') := by
  simp [isHexLower]

theorem hexDigitVal_lt (c : Char) (h : isHexLower c = true) :
    hexDigitVal c < 16 := by
  rcases (isHexLower_iff c).mp h with
    rfl | rfl | rfl | rfl | rfl | rfl | rfl | rfl | rfl | rfl | rfl | rfl |
    rfl | rfl | rfl | rfl <;> decide

theorem hexDigitVal_hexDigitChar_fin :
    ∀ m : Fin 16, hexDigitVal (hexDigitChar m.val) = m.val := by decide

/-- `hexDigitChar` and `hexDigitVal` are mutually inverse on `[0, 16)`. -/
theorem hexDigitVal_hexDigitChar (m : Nat) (h : m < 16) :
    hexDigitVal (hexDigitChar m) = m :=
  hexDigitVal_hexDigitChar_fin ⟨m, h⟩

theorem hexDigitVal_toLower_hexDigitChar_fin :
    ∀ m : Fin 16, hexDigitVal (Char.toLower (hexDigitChar m.val)) = m.val := by decide

theorem hexDigitVal_toLower_hexDigitChar (m : Nat) (h : m < 16) :
    hexDigitVal (Char.toLower (hexDigitChar m)) = m :=
  hexDigitVal_toLower_hexDigitChar_fin ⟨m, h⟩

theorem isHexLower_toLower_hexDigitChar_fin :
    ∀ m : Fin 16, isHexLower (Char.toLower (hexDigitChar m.val)) = true := by decide

theorem isHexLower_toLower_hexDigitChar (m : Nat) (h : m < 16) :
    isHexLower (Char.toLower (hexDigitChar m)) = true :=
  isHexLower_toLower_hexDigitChar_fin ⟨m, h⟩

theorem hexDigitChar_mem_fin :
    ∀ m : Fin 16, hexDigitChar m.val ∈ hexUpperDigits := by decide

theorem hexDigitChar_mem (m : Nat) (h : m < 16) :
    hexDigitChar m ∈ hexUpperDigits :=
  hexDigitChar_mem_fin ⟨m, h⟩

theorem hexToNat_append_singleton (l : List Char) (c : Char) :
    hexToNat (l ++ [c]) = 16 * hexToNat l + hexDigitVal c := by
  simp [hexToNat, List.foldl_append]

theorem hexToNat_natToHexDigits (n : Nat) :
    hexToNat (natToHexDigits n) = n := by
  induction n using Nat.strong_induction_on with
  | _ n ih =>
    rcases eq_or_ne n 0 with rfl | h
    · rfl
    · rw [natToHexDigits_eq n h, hexToNat_append_singleton, ih (n / 16) (by omega)]
      rw [hexDigitVal_hexDigitChar (n % 16) (by omega)]
      omega

theorem hexToNat_toLower_natToHexDigits (n : Nat) :
    hexToNat ((natToHexDigits n).map Char.toLower) = n := by
  induction n using Nat.strong_induction_on with
  | _ n ih =>
    rcases eq_or_ne n 0 with rfl | h
    · rfl
    · rw [natToHexDigits_eq n h, List.map_append, List.map_singleton,
        hexToNat_append_singleton, ih (n / 16) (by omega)]
      rw [hexDigitVal_toLower_hexDigitChar (n % 16) (by omega)]
      omega

theorem hexToNat_foldl_lt :
    ∀ (l : List Char), (∀ c ∈ l, isHexLower c = true) →
      ∀ a : Nat,
        l.foldl (fun a c => 16 * a + hexDigitVal c) a < (a + 1) * 16 ^ l.length := by
  intro l
  induction l with
  | nil => intro _ a; simpa using Nat.lt_succ_self a
  | cons c l ih =>
    intro hall a
    have h1 : hexDigitVal c < 16 :=
      hexDigitVal_lt c (hall c (List.mem_cons_self c l))
    have h2 := ih (fun x hx => hall x (List.mem_cons_of_mem c hx))
      (16 * a + hexDigitVal c)
    have h3 : (16 * a + hexDigitVal c + 1) * 16 ^ l.length ≤
        (a + 1) * 16 ^ (l.length + 1) := by
      have h4 : 16 * a + hexDigitVal c + 1 ≤ 16 * (a + 1) := by omega
      calc (16 * a + hexDigitVal c + 1) * 16 ^ l.length
          ≤ 16 * (a + 1) * 16 ^ l.length := Nat.mul_le_mul_right _ h4
        _ = (a + 1) * 16 ^ (l.length + 1) := by ring
    simp only [List.foldl_cons, List.length_cons]
    exact lt_of_lt_of_le h2 h3

theorem hexToNat_lt (l : List Char) (h : ∀ c ∈ l, isHexLower c = true) :
    hexToNat l < 16 ^ l.length := by
  simpa using hexToNat_foldl_lt l h 0

theorem hexToNat_replicate_append (k : Nat) (l : List Char) :
    hexToNat (List.replicate k '0' ++ l) = hexToNat l := by
  induction k with
  | zero => rfl
  | succ k ih =>
    have hd : hexDigitVal '0' = 0 := rfl
    simpa [hexToNat, List.replicate_succ, hd] using ih

theorem natToHexDigits_length_le :
    ∀ k n, n < 16 ^ k → (natToHexDigits n).length ≤ k := by
  intro k
  induction k with
  | zero =>
    intro n h
    interval_cases n
    simp [natToHexDigits_zero]
  | succ k ih =>
    intro n h
    rcases eq_or_ne n 0 with rfl | hn
    · simp [natToHexDigits_zero]
    · rw [natToHexDigits_eq n hn]
      have hdiv : n / 16 < 16 ^ k := by
        rw [Nat.div_lt_iff_lt_mul (by omega)]
        calc n < 16 ^ (k + 1) := h
          _ = 16 ^ k * 16 := by rw [pow_succ]
      have := ih (n / 16) hdiv
      simp only [List.length_append, List.length_singleton]
      omega

theorem natToHexDigits_chars :
    ∀ n, ∀ c ∈ natToHexDigits n, c ∈ hexUpperDigits := by
  intro n
  induction n using Nat.strong_induction_on with
  | _ n ih =>
    intro c hc
    rcases eq_or_ne n 0 with rfl | h
    · simp [natToHexDigits_zero] at hc
    · rw [natToHexDigits_eq n h] at hc
      rcases List.mem_append.mp hc with h1 | h1
      · exact ih (n / 16) (by omega) c h1
      · rcases List.mem_singleton.mp h1 with rfl
        exact hexDigitChar_mem (n % 16) (by omega)

/-- Specification of Python's `f"{n:08X}"` for `n < 16^8`: exactly 8
uppercase hexadecimal digits whose value is `n`. -/
theorem fmt08X_spec (n : Nat) (h : n < 16 ^ 8) :
    (fmt08X n).length = 8 ∧ (∀ c ∈ fmt08X n, c ∈ hexUpperDigits) ∧
      hexToNat (fmt08X n) = n := by
  have hlen := natToHexDigits_length_le 8 n h
  refine ⟨?_, ?_, ?_⟩
  · simp only [fmt08X, List.length_append, List.length_replicate]
    omega
  · intro c hc
    rcases List.mem_append.mp hc with h1 | h1
    · rcases List.eq_of_mem_replicate h1 with rfl
      simp [hexUpperDigits]
    · exact natToHexDigits_chars n c h1
  · rw [fmt08X, hexToNat_replicate_append, hexToNat_natToHexDigits]

/-- Specification of Python's `f"{n:032b}"` for `n < 2^32`: exactly 32
binary digit characters whose value is `n`. -/
theorem fmt032b_spec (n : Nat) (h : n < 2 ^ 32) :
    (fmt032b n).length = 32 ∧ (∀ c ∈ fmt032b n, c = '0' ∨ c = '1') ∧
      binToNat (fmt032b n) = n := by
  have hlen := natToBinDigits_length_le 32 n h
  refine ⟨?_, ?_, ?_⟩
  · simp only [fmt032b, List.length_append, List.length_replicate]
    omega
  · intro c hc
    rcases List.mem_append.mp hc with h1 | h1
    · rcases List.eq_of_mem_replicate h1 with rfl
      exact Or.inl rfl
    · exact natToBinDigits_chars n c h1
  · rw [fmt032b, binToNat_replicate_append, binToNat_natToBinDigits]

/-! ## Lemmas about the fractional-expansion loop -/

/-- One unfolding of the loop body (lines 126–133): double, compare,
emit, subtract, test for exact zero. -/
theorem fracBits_succ (den num fuel : Nat) :
    fracBits den num (fuel + 1) =
      if den ≤ 2 * num then
        (if 2 * num - den = 0 then ['1']
         else '1' :: fracBits den (2 * num - den) fuel)
      else
        (if 2 * num = 0 then ['0'] else '0' :: fracBits den (2 * num) fuel) := by
  rfl

theorem fracBits_length_le (den : Nat) :
    ∀ fuel num, (fracBits den num fuel).length ≤ fuel := by
  intro fuel
  induction fuel with
  | zero => intro num; simp [fracBits]
  | succ fuel ih =>
    intro num
    rw [fracBits_succ]
    split
    · split
      · simp
      · simpa using Nat.succ_le_succ (ih _)
    · split
      · simp
      · simpa using Nat.succ_le_succ (ih _)

theorem fracBits_chars (den : Nat) :
    ∀ fuel num, ∀ c ∈ fracBits den num fuel, c = '0' ∨ c = '1' := by
  intro fuel
  induction fuel with
  | zero => intro num c hc; simp [fracBits] at hc
  | succ fuel ih =>
    intro num c hc
    rw [fracBits_succ] at hc
    split at hc
    · split at hc
      · rcases List.mem_singleton.mp hc with rfl; exact Or.inr rfl
      · rcases List.mem_cons.mp hc with rfl | h2
        · exact Or.inr rfl
        · exact ih _ c h2
    · split at hc
      · rcases List.mem_singleton.mp hc with rfl; exact Or.inl rfl
      · rcases List.mem_cons.mp hc with rfl | h2
        · exact Or.inl rfl
        · exact ih _ c h2

/-- The loop emits `['0']` and stops immediately on a zero fraction
(first iteration: `frac = 0`, doubled stays `0`, emits '0', breaks). -/
theorem fracBits_zero_num (den : Nat) (hden : 0 < den) :
    fracBits den 0 40 = ['0'] := by
  unfold fracBits
  rw [if_neg (by omega), if_pos (by omega)]

/-! ## Lemmas about `str.strip` -/

theorem dropWhile_eq_self_of {p : Char → Bool} {l : List Char}
    (h : ∀ c ∈ l, p c = false) : l.dropWhile p = l := by
  cases l with
  | nil => rfl
  | cons a t => simp [List.dropWhile_cons, h a (List.mem_cons_self a t)]

theorem pytrim_eq_self {l : List Char}
    (h : ∀ c ∈ l, c.isWhitespace = false) : pytrim l = l := by
  unfold pytrim
  rw [dropWhile_eq_self_of h,
    dropWhile_eq_self_of (fun c hc => h c (List.mem_reverse.mp hc)),
    List.reverse_reverse]

/-! ## Lemmas about `value.split('.')` -/

/-- One unfolding of `splitDots` on a cons cell. -/
theorem splitDots_cons (c : Char) (rest : List Char) :
    splitDots (c :: rest) =
      match splitDots rest with
      | [] => [[]]
      | p :: ps => if c = '.' then [] :: p :: ps else (c :: p) :: ps := by
  rfl

theorem splitDots_ne_nil : ∀ l : List Char, splitDots l ≠ [] := by
  intro l
  cases l with
  | nil => simp [splitDots]
  | cons c rest =>
    rw [splitDots_cons]
    cases h : splitDots rest with
    | nil => simp
    | cons p ps =>
      split
      · simp
      · split <;> simp

theorem splitDots_no_dot :
    ∀ l : List Char, (∀ c ∈ l, c ≠ '.') → splitDots l = [l] := by
  intro l
  induction l with
  | nil => intro _; rfl
  | cons c rest ih =>
    intro h
    rw [splitDots_cons, ih (fun x hx => h x (List.mem_cons_of_mem c hx))]
    simp [h c (List.mem_cons_self c rest)]

theorem splitDots_append_dot (a b : List Char) (ha : ∀ c ∈ a, c ≠ '.') :
    splitDots (a ++ '.' :: b) = a :: splitDots b := by
  induction a with
  | nil =>
    show splitDots ('.' :: b) = [] :: splitDots b
    rw [splitDots_cons]
    cases hb : splitDots b with
    | nil => exact absurd hb (splitDots_ne_nil b)
    | cons p ps => simp
  | cons c a ih =>
    have hc : c ≠ '.' := ha c (List.mem_cons_self c a)
    have ih2 := ih (fun x hx => ha x (List.mem_cons_of_mem c hx))
    show splitDots (c :: (a ++ '.' :: b)) = (c :: a) :: splitDots b
    rw [splitDots_cons, ih2]
    simp [hc]

theorem mem_splitDots (l : List Char) (c : Char) (hc : c ∈ l)
    (hne : c ≠ '.') : ∃ p ∈ splitDots l, c ∈ p := by
  induction l with
  | nil => cases hc
  | cons d rest ih =>
    rw [splitDots_cons]
    cases h : splitDots rest with
    | nil => exact absurd h (splitDots_ne_nil rest)
    | cons p ps =>
      rcases List.mem_cons.mp hc with rfl | hc2
      · simp only [if_neg hne]
        exact ⟨c :: p, List.mem_cons_self _ _, List.mem_cons_self _ _⟩
      · obtain ⟨q, hq, hcq⟩ := ih hc2
        rw [h] at hq
        simp only []
        split
        · exact ⟨q, List.mem_cons_of_mem _ hq, hcq⟩
        · rcases List.mem_cons.mp hq with rfl | hq2
          · exact ⟨d :: q, List.mem_cons_self _ _, List.mem_cons_of_mem _ hcq⟩
          · exact ⟨q, List.mem_cons_of_mem _ hq2, hcq⟩

/-! ## Claim C1 -/

/-- C1 (counterexample): the claim caps the fractional expansion at
`mantissa_width + 10 = 33` emitted bits, but on decimal input `"0.1"`
(the value `1/10`, `DecValue false 1 1`) the loop emits 40 bits — the
code iterates `for _ in range(40)`, not 33 times. -/
theorem C1_counterexample : 33 < (decFracBits ⟨false, 1, 1⟩).length := by decide

/-- C1 (amended): in decimal-to-IEEE conversion, the fractional-part
expansion by repeated doubling emits at most **40** bits
(`for _ in range(40)`; that is `mantissa_width + 17`, not
`mantissa_width + 10 = 33`): each iteration multiplies the remaining
fraction by 2, emits '1' and subtracts 1 if the result is ≥ 1 and
otherwise emits '0', and the loop stops as soon as the remainder is
exactly 0 or 40 bits have been emitted. -/
theorem C1_fracBits_bound (den num : Nat) :
    (fracBits den num 40).length ≤ 40 :=
  fracBits_length_le den 40 num

/-- C1 (witness): the bound instantiated at the fraction `1/10`. -/
theorem C1_witness : (fracBits 10 1 40).length ≤ 40 :=
  C1_fracBits_bound 10 1

/-! ## Claim C4 -/

/-- C4: decimal input `"1.0"` (the value `10/10^1`) converts to sign
bit 0, unbiased exponent 0 (hence biased exponent 127, the exponent
field `01111111`), a mantissa of 23 zero bits, the 32-bit string
`0 01111111 00000000000000000000000`, and hex string `0x3F800000`. -/
theorem C4_one_point_zero :
    decimal_normalize ⟨false, 10, 1⟩ = .ok (0, 0, ['0']) ∧
    decimal_to_ieee_steps ⟨false, 10, 1⟩ =
      .ok ('0' :: (['0', '1', '1', '1', '1', '1', '1', '1'] ++
                   List.replicate 23 '0'),
           ['0', 'x', '3', 'F', '8', '0', '0', '0', '0', '0']) := by
  constructor
  · decide
  · decide

/-! ## Claim C6 -/

/-- C6: for every decimal input whose value is exactly zero
(`mant = 0`, any scale and any sign — `Decimal("-0")` also compares
equal to zero), decimal-to-IEEE conversion fails with
`CannotNormalizeZero`; no bit pattern is produced for zero. -/
theorem C6_zero_fails (v : DecValue) (h : v.mant = 0) :
    decimal_to_ieee_steps v = .error .cannotNormalizeZero := by
  have h10 : 0 < 10 ^ v.scale := pow_pos (by norm_num) _
  have hip : decIntPart v = 0 := by
    unfold decIntPart; rw [h]; exact Nat.zero_div _
  have hfb : decFracBits v = ['0'] := by
    unfold decFracBits decFracNum
    rw [h, Nat.zero_mod]
    exact fracBits_zero_num _ h10
  have hnorm : decimal_normalize v = .error .cannotNormalizeZero := by
    unfold decimal_normalize
    rw [hip, hfb]
    rfl
  unfold decimal_to_ieee_steps
  rw [hnorm]

/-- C6 (witness): the input `"0"` (`DecValue false 0 0`) triggers the
failure. -/
theorem C6_witness :
    decimal_to_ieee_steps ⟨false, 0, 0⟩ = .error .cannotNormalizeZero :=
  C6_zero_fails ⟨false, 0, 0⟩ rfl

/-! ## Claim C2 -/

/-- C2 (counterexample): the claim says an unbiased exponent greater
than 127 fails with `ExponentOutOfRange`, but `2^128` (unbiased
exponent 128, biased 255) passes the range check `0 ≤ biased ≤ 255`
and converts successfully. -/
theorem C2_counterexample :
    decimal_normalize ⟨false, 2 ^ 128, 0⟩ =
      .ok (0, 128, List.replicate 129 '0') ∧
    decimal_to_ieee_steps ⟨false, 2 ^ 128, 0⟩ ≠
      .error .exponentOutOfRange := by
  constructor
  · decide
  · decide

/-- C2 (amended): for every decimal input on which normalization
succeeds, decimal-to-IEEE conversion fails with `ExponentOutOfRange`
exactly when the unbiased exponent is greater than **128** or less
than **−127** — equivalently, when the biased exponent
`unbiased + 127` falls outside `[0, 2^8 − 1] = [0, 255]`; the
validation rule admits the all-zero and all-one exponent codes
(unbiased −127 and 128), so the claim's thresholds 127 and −126 are
off by one on both sides. -/
theorem C2_range_check (v : DecValue) (s : Nat) (e : Int) (m : List Char)
    (h : decimal_normalize v = .ok (s, e, m)) :
    decimal_to_ieee_steps v = .error .exponentOutOfRange ↔
      (128 < e ∨ e < -127) := by
  unfold decimal_to_ieee_steps
  rw [h]
  dsimp only
  by_cases hr : 0 ≤ e + 127 ∧ e + 127 ≤ 255
  · rw [if_pos hr]
    constructor
    · intro hc; exact absurd hc (by simp)
    · intro hc; exact absurd hr (by omega)
  · rw [if_neg hr]
    constructor
    · intro _; omega
    · intro _; rfl

/-- C2 (witness): `2^129` normalizes to unbiased exponent 129 > 128
and indeed fails with `ExponentOutOfRange`. -/
theorem C2_witness :
    decimal_to_ieee_steps ⟨false, 2 ^ 129, 0⟩ =
      .error .exponentOutOfRange := by
  have h : decimal_normalize ⟨false, 2 ^ 129, 0⟩ =
      .ok (0, 129, List.replicate 130 '0') := by decide
  exact (C2_range_check _ 0 129 _ h).mpr (Or.inl (by norm_num))

/-! ## Claim C3 -/

/-- C3 (counterexample): the claim quantifies over every
nonzero-integer-part input, but under the engine's
`getcontext().prec = 80` the very first step of normalization,
`int(dec // 1)` (line 119), raises an uncaught
`decimal.InvalidOperation` (`DivisionImpossible`) as soon as the
integer part needs more than 80 digits: on input `10^99` normalization
fails instead of producing unbiased exponent = bit-length − 1 =
328. -/
theorem C3_counterexample :
    decimal_normalize ⟨false, 10 ^ 99, 0⟩ = .error .invalidOperation := by
  decide

/-- C3 (amended): within the engine's 80-significant-digit Decimal
working precision — integer part of at most 80 digits (beyond,
`int(dec // 1)` raises an uncaught `decimal.InvalidOperation`) and at
most 79 fractional digits (the region in which the `Decimal`
subtraction at line 120 and the doublings of the expansion loop are
exact, so the embedding's exact fractional bits are the program's) —
normalization computes: for every nonzero-integer-part input, the
unbiased exponent equals the bit-length of the integer part's binary
representation minus 1 (`Nat.size` is the bit-length) and the
candidate mantissa is the integer bits without their leading '1'
concatenated with the fractional bits; for every zero-integer-part
input whose fractional bit string has its first '1' at index `i`
(0-based), the unbiased exponent is `-(i+1)` and the candidate
mantissa is the fractional bits after that '1'. -/
theorem C3_normalization (v : DecValue) (hscale : v.scale ≤ 79) :
    (decIntPart v ≠ 0 → decIntPart v < 10 ^ 80 →
      ∃ t, natToBinDigits (decIntPart v) = '1' :: t ∧
        decimal_normalize v =
          .ok (decSign v, (Nat.size (decIntPart v) : Int) - 1,
               t ++ decFracBits v)) ∧
    (decIntPart v = 0 →
      ∀ i : Nat, (∀ j, j < i → (decFracBits v)[j]? ≠ some '1') →
        (decFracBits v)[i]? = some '1' →
        decimal_normalize v =
          .ok (decSign v, -((i : Int) + 1), (decFracBits v).drop (i + 1))) := by
  constructor
  · intro h hlt
    obtain ⟨t, ht⟩ := natToBinDigits_head (decIntPart v) h
    refine ⟨t, ht, ?_⟩
    unfold decimal_normalize
    dsimp only
    rw [if_neg (not_le.mpr hlt), if_pos h, if_pos h,
      natToBinDigits_length_eq_size, ht]
    rfl
  · intro h i h1 h2
    have hfind : (decFracBits v).findIdx? (· = '1') = some i := by
      rw [List.findIdx?_eq_some_iff_getElem]
      obtain ⟨hlt, hget⟩ := List.getElem?_eq_some_iff.mp h2
      refine ⟨hlt, by simp [hget], ?_⟩
      intro j hj
      refine fun hcontra => (h1 j hj) ?_
      have hjlt : j < (decFracBits v).length := lt_trans hj hlt
      exact List.getElem?_eq_some_iff.mpr ⟨hjlt, by simpa using hcontra⟩
    have hguard : ¬ 10 ^ 80 ≤ decIntPart v := by
      rw [h]
      exact not_le.mpr (by positivity)
    unfold decimal_normalize
    dsimp only
    rw [if_neg hguard, if_neg (by simp [h]), hfind]

/-- C3 (witness): `"5"` (integer part 5 = `101₂`, bit-length 3) gets
unbiased exponent 2 and mantissa `01` ++ fractional bits; `"0.25"`
(fractional bits `01`, first '1' at index 1) gets unbiased exponent
−2 and the fractional bits after that '1'. -/
theorem C3_witness :
    decimal_normalize ⟨false, 5, 0⟩ =
      .ok (0, 2, ['0', '1'] ++ decFracBits ⟨false, 5, 0⟩) ∧
    decimal_normalize ⟨false, 25, 2⟩ =
      .ok (0, -2, (decFracBits ⟨false, 25, 2⟩).drop 2) := by
  constructor
  · obtain ⟨t, ht, hres⟩ :=
      (C3_normalization ⟨false, 5, 0⟩ (by norm_num)).1 (by decide) (by decide)
    have h5 : natToBinDigits (decIntPart ⟨false, 5, 0⟩) = ['1', '0', '1'] := by
      decide
    rw [h5] at ht
    injection ht with _ ht2
    rw [← ht2] at hres
    have hsize : Nat.size (decIntPart ⟨false, 5, 0⟩) = 3 := by
      rw [← natToBinDigits_length_eq_size, h5]
      rfl
    rw [hsize] at hres
    exact hres.trans (by decide)
  · have hres := (C3_normalization ⟨false, 25, 2⟩ (by norm_num)).2 (by decide) 1
      (by intro j hj; interval_cases j; decide) (by decide)
    exact hres.trans (by decide)

/-! ## Helper lemmas for the hex pipeline (claims C5, C9) -/

/-- Python `f"{n:08b}"` for `n < 2^8`: exactly 8 binary digits. -/
theorem fmt08b_spec (n : Nat) (h : n < 2 ^ 8) :
    (fmt08b n).length = 8 ∧ (∀ c ∈ fmt08b n, c = '0' ∨ c = '1') := by
  have hlen := natToBinDigits_length_le 8 n h
  constructor
  · simp only [fmt08b, List.length_append, List.length_replicate]
    omega
  · intro c hc
    rcases List.mem_append.mp hc with h1 | h1
    · rcases List.eq_of_mem_replicate h1 with rfl
      exact Or.inl rfl
    · exact natToBinDigits_chars n c h1

theorem mem_hexUpper_not_whitespace :
    ∀ c ∈ hexUpperDigits, c.isWhitespace = false := by decide

theorem mem_hexUpper_toLower_isHexLower :
    ∀ c ∈ hexUpperDigits, isHexLower (Char.toLower c) = true := by decide

/-- Every successful hex parse produces `f"{n:032b}"` for some
`n < 2^32`. -/
theorem hex_payload_ok {L bits : List Char} (hlen : L.length = 8)
    (hall : L.all isHexLower = true) (hb : fmt032b (hexToNat L) = bits) :
    ∃ n : Nat, n < 2 ^ 32 ∧ bits = fmt032b n := by
  refine ⟨hexToNat L, ?_, hb.symm⟩
  have hbound := hexToNat_lt L (fun c hc => List.all_eq_true.mp hall c hc)
  rw [hlen] at hbound
  calc hexToNat L < 16 ^ 8 := hbound
    _ = 2 ^ 32 := by norm_num

theorem parse_hex_input_ok {s bits : List Char}
    (h : parse_hex_input s = .ok bits) :
    ∃ n : Nat, n < 2 ^ 32 ∧ bits = fmt032b n := by
  unfold parse_hex_input at h
  dsimp only at h
  split at h
  · split at h
    case isTrue hc =>
      injection h with hb
      exact hex_payload_ok hc.1 hc.2 hb
    case isFalse => exact absurd h (by simp)
  · split at h
    case isTrue hc =>
      injection h with hb
      exact hex_payload_ok hc.1 hc.2 hb
    case isFalse => exact absurd h (by simp)

/-- Re-encoding a produced 32-bit string as hex and parsing it back
yields the same bit string. -/
theorem hexEncode_parse (n : Nat) (hn : n < 2 ^ 32) :
    parse_hex_input (hexEncode (fmt032b n)) = .ok (fmt032b n) := by
  have h16 : n < 16 ^ 8 := by
    calc n < 2 ^ 32 := hn
      _ = 16 ^ 8 := by norm_num
  have hbn : binToNat (fmt032b n) = n := (fmt032b_spec n hn).2.2
  obtain ⟨hlen, hchars, hval⟩ := fmt08X_spec n h16
  rw [hexEncode, hbn]
  have htrim : pytrim ('0' :: 'x' :: fmt08X n) = '0' :: 'x' :: fmt08X n := by
    apply pytrim_eq_self
    intro c hc
    rcases List.mem_cons.mp hc with rfl | hc1
    · decide
    rcases List.mem_cons.mp hc1 with rfl | hc2
    · decide
    exact mem_hexUpper_not_whitespace c (hchars c hc2)
  have hmap : ('0' :: 'x' :: fmt08X n).map Char.toLower =
      '0' :: 'x' :: (fmt08X n).map Char.toLower := by
    simp only [List.map_cons]
    rfl
  have htake : List.take 2 ('0' :: 'x' :: (fmt08X n).map Char.toLower) =
      ['0', 'x'] := rfl
  have hdrop : List.drop 2 ('0' :: 'x' :: (fmt08X n).map Char.toLower) =
      (fmt08X n).map Char.toLower := rfl
  have hcond : ((fmt08X n).map Char.toLower).length = 8 ∧
      ((fmt08X n).map Char.toLower).all isHexLower = true := by
    constructor
    · rw [List.length_map]; exact hlen
    · refine List.all_eq_true.mpr ?_
      intro c hc
      obtain ⟨d, hd, rfl⟩ := List.mem_map.mp hc
      exact mem_hexUpper_toLower_isHexLower d (hchars d hd)
  have hv : hexToNat ((fmt08X n).map Char.toLower) = n := by
    rw [fmt08X, List.map_append, List.map_replicate]
    have h0 : Char.toLower '0' = '0' := rfl
    rw [h0, hexToNat_replicate_append, hexToNat_toLower_natToHexDigits]
  unfold parse_hex_input
  dsimp only
  rw [htrim, hmap, htake, hdrop, if_pos rfl, if_pos hcond, hv]

/-- Shape of a successful normalization: the sign is a bit and every
mantissa character is a binary digit. -/
theorem decimal_normalize_ok_shape {v : DecValue} {s : Nat} {e : Int}
    {m : List Char} (h : decimal_normalize v = .ok (s, e, m)) :
    (s = 0 ∨ s = 1) ∧ ∀ c ∈ m, c = '0' ∨ c = '1' := by
  have hsign : decSign v = 0 ∨ decSign v = 1 := by
    unfold decSign; split <;> simp
  unfold decimal_normalize at h
  dsimp only at h
  by_cases hbig : 10 ^ 80 ≤ decIntPart v
  · rw [if_pos hbig] at h
    exact absurd h (by simp)
  rw [if_neg hbig] at h
  by_cases hip : decIntPart v ≠ 0
  · rw [if_pos hip, if_pos hip] at h
    injection h with h2
    injection h2 with hs h3
    injection h3 with he hm
    subst hs
    subst hm
    refine ⟨hsign, ?_⟩
    intro c hc
    rcases List.mem_append.mp hc with h1 | h1
    · exact natToBinDigits_chars _ c (List.drop_subset _ _ h1)
    · exact fracBits_chars _ _ _ c h1
  · rw [if_neg hip] at h
    cases hfind : (decFracBits v).findIdx? (fun x => decide (x = '1')) with
    | none => rw [hfind] at h; exact absurd h (by simp)
    | some first_one =>
      rw [hfind] at h
      dsimp only at h
      injection h with h2
      injection h2 with hs h3
      injection h3 with he hm
      subst hs
      subst hm
      refine ⟨hsign, ?_⟩
      intro c hc
      exact fracBits_chars _ _ _ c (List.drop_subset _ _ hc)

/-- Shape of a successful decimal conversion: a 32-character binary
string and its canonical hex re-encoding. -/
theorem decimal_to_ieee_ok_shape {v : DecValue} {bits hx : List Char}
    (h : decimal_to_ieee_steps v = .ok (bits, hx)) :
    bits.length = 32 ∧ (∀ c ∈ bits, c = '0' ∨ c = '1') ∧
      hx = hexEncode bits := by
  unfold decimal_to_ieee_steps at h
  cases hn : decimal_normalize v with
  | error err => rw [hn] at h; exact absurd h (by simp)
  | ok t =>
    obtain ⟨s, e, m⟩ := t
    rw [hn] at h
    dsimp only at h
    split at h
    case isTrue hr =>
      obtain ⟨hsign, hm⟩ := decimal_normalize_ok_shape hn
      injection h with h2
      injection h2 with hbits hhx
      have hexp : (e + 127).toNat < 2 ^ 8 := by omega
      obtain ⟨helen, hechars⟩ := fmt08b_spec _ hexp
      have hslen : (fmtb s).length = 1 := by
        rcases hsign with rfl | rfl <;> rfl
      have hschars : ∀ c ∈ fmtb s, c = '0' ∨ c = '1' := by
        rcases hsign with rfl | rfl
        · intro c hc
          have h0 : fmtb 0 = ['0'] := rfl
          rw [h0] at hc
          rcases List.mem_singleton.mp hc with rfl
          exact Or.inl rfl
        · intro c hc
          have h1 : fmtb 1 = ['1'] := rfl
          rw [h1] at hc
          rcases List.mem_singleton.mp hc with rfl
          exact Or.inr rfl
      have hmtake : (m.take 23).length ≤ 23 := by
        simpa using Nat.min_le_left 23 m.length
      have hmlen : (m.take 23 ++
          List.replicate (23 - (m.take 23).length) '0').length = 23 := by
        simp only [List.length_append, List.length_replicate]
        omega
      have hmchars : ∀ c ∈ m.take 23 ++
          List.replicate (23 - (m.take 23).length) '0', c = '0' ∨ c = '1' := by
        intro c hc
        rcases List.mem_append.mp hc with h1 | h1
        · exact hm c (List.take_subset _ _ h1)
        · rcases List.eq_of_mem_replicate h1 with rfl
          exact Or.inl rfl
      refine ⟨?_, ?_, ?_⟩
      · rw [← hbits]
        simp only [List.length_append, hslen, helen, hmlen]
      · rw [← hbits]
        intro c hc
        rcases List.mem_append.mp hc with hc1 | hc1
        · rcases List.mem_append.mp hc1 with hc2 | hc2
          · exact hschars c hc2
          · exact hechars c hc2
        · exact hmchars c hc1
      · rw [← hhx, ← hbits]
        rfl
    case isFalse => exact absurd h (by simp)

/-! ## Claim C5 -/

/-- C5: for every valid hexadecimal input (8 hex digits, optional
`0x`/`0X` marker, any letter case — i.e. every input the parser
accepts), re-encoding the decoded 32-bit string as hex yields the
canonical uppercase `0x`-prefixed 8-digit hex string denoting the same
integer value as the bit string, and parsing that re-encoded string
decodes to the same bit string again, so decode-then-re-encode is
idempotent. -/
theorem C5_hex_idempotent (s bits : List Char)
    (h : parse_hex_input s = .ok bits) :
    (∃ ds, hexEncode bits = '0' :: 'x' :: ds ∧ ds.length = 8 ∧
       (∀ c ∈ ds, c ∈ hexUpperDigits) ∧ hexToNat ds = binToNat bits) ∧
    parse_hex_input (hexEncode bits) = .ok bits := by
  obtain ⟨n, hn, rfl⟩ := parse_hex_input_ok h
  have h16 : n < 16 ^ 8 := by
    calc n < 2 ^ 32 := hn
      _ = 16 ^ 8 := by norm_num
  have hbn : binToNat (fmt032b n) = n := (fmt032b_spec n hn).2.2
  obtain ⟨hlen, hchars, hval⟩ := fmt08X_spec n h16
  constructor
  · refine ⟨fmt08X (binToNat (fmt032b n)), rfl, ?_, ?_, ?_⟩
    · rw [hbn]; exact hlen
    · rw [hbn]; exact hchars
    · rw [hbn]; exact hval
  · exact hexEncode_parse n hn

/-- C5 (witness): decoding `"0x3F800000"` and re-encoding its bit
string parses back to the same bit string. -/
theorem C5_witness :
    parse_hex_input (hexEncode (fmt032b 1065353216)) =
      .ok (fmt032b 1065353216) := by
  have h : parse_hex_input ['0', 'x', '3', 'F', '8', '0', '0', '0', '0', '0'] =
      .ok (fmt032b 1065353216) := by decide
  exact (C5_hex_idempotent _ _ h).2

/-! ## Claim C9 -/

/-- C9: every bit string and hex string the engine produces (from
decimal conversion or from hex decoding re-encoded at app line 208)
satisfies: the bit string has length exactly
32 = sign_width + exponent_width + mantissa_width with every character
'0' or '1', and the hex string is `0x` followed by exactly 32/4 = 8
uppercase hexadecimal digits, zero-padded, denoting the same integer
value as the bit string. -/
theorem C9_format_invariants :
    (∀ (v : DecValue) (bits hx : List Char),
        decimal_to_ieee_steps v = .ok (bits, hx) →
        bits.length = 32 ∧ (∀ c ∈ bits, c = '0' ∨ c = '1') ∧
        ∃ ds, hx = '0' :: 'x' :: ds ∧ ds.length = 8 ∧
          (∀ c ∈ ds, c ∈ hexUpperDigits) ∧ hexToNat ds = binToNat bits) ∧
    (∀ (s bits : List Char), parse_hex_input s = .ok bits →
        bits.length = 32 ∧ (∀ c ∈ bits, c = '0' ∨ c = '1') ∧
        ∃ ds, hexEncode bits = '0' :: 'x' :: ds ∧ ds.length = 8 ∧
          (∀ c ∈ ds, c ∈ hexUpperDigits) ∧ hexToNat ds = binToNat bits) := by
  have key : ∀ bits : List Char, bits.length = 32 →
      ∃ ds, hexEncode bits = '0' :: 'x' :: ds ∧ ds.length = 8 ∧
        (∀ c ∈ ds, c ∈ hexUpperDigits) ∧ hexToNat ds = binToNat bits := by
    intro bits h32
    have hb : binToNat bits < 16 ^ 8 := by
      have hlt := binToNat_lt bits
      rw [h32] at hlt
      calc binToNat bits < 2 ^ 32 := hlt
        _ = 16 ^ 8 := by norm_num
    obtain ⟨hlen, hchars, hval⟩ := fmt08X_spec _ hb
    exact ⟨fmt08X (binToNat bits), rfl, hlen, hchars, hval⟩
  constructor
  · intro v bits hx h
    obtain ⟨h32, hchars, hhex⟩ := decimal_to_ieee_ok_shape h
    refine ⟨h32, hchars, ?_⟩
    rw [hhex]
    exact key bits h32
  · intro s bits h
    obtain ⟨n, hn, rfl⟩ := parse_hex_input_ok h
    obtain ⟨h32, hchars, _⟩ := fmt032b_spec n hn
    exact ⟨h32, hchars, key _ h32⟩

/-- C9 (witness): the spec's boundary example `"3.1415926"` produces
the bit pattern of `0x40490FDA`, and the invariants hold for it. -/
theorem C9_witness :
    (fmt032b 0x40490FDA).length = 32 ∧
    (∀ c ∈ fmt032b 0x40490FDA, c = '0' ∨ c = '1') ∧
    ∃ ds, hexEncode (fmt032b 0x40490FDA) = '0' :: 'x' :: ds ∧
      ds.length = 8 ∧ (∀ c ∈ ds, c ∈ hexUpperDigits) ∧
      hexToNat ds = binToNat (fmt032b 0x40490FDA) := by
  have h : decimal_to_ieee_steps ⟨false, 31415926, 7⟩ =
      .ok (fmt032b 0x40490FDA, hexEncode (fmt032b 0x40490FDA)) := by decide
  exact C9_format_invariants.1 ⟨false, 31415926, 7⟩ _ _ h

/-! ## Helper lemmas for the binary-fraction parser (claims C7, C8, C10) -/

theorem isBinDigit_iff (c : Char) :
    isBinDigit c = true ↔ (c = '0' ∨ c = '1') := by
  simp [isBinDigit]

theorem isBinDigit_not_whitespace (c : Char) (h : isBinDigit c = true) :
    c.isWhitespace = false := by
  rcases (isBinDigit_iff c).mp h with rfl | rfl <;> decide

theorem isBinDigit_ne_dot (c : Char) (h : isBinDigit c = true) : c ≠ '.' := by
  rcases (isBinDigit_iff c).mp h with rfl | rfl <;> decide

theorem pbSign_cons_other {c : Char} {l : List Char}
    (h1 : c ≠ '+') (h2 : c ≠ '-') : pbSign (c :: l) = 1 := by
  unfold pbSign
  split <;> simp_all

theorem pbRest_cons_other {c : Char} {l : List Char}
    (h1 : c ≠ '+') (h2 : c ≠ '-') : pbRest (c :: l) = c :: l := by
  unfold pbRest
  split <;> simp_all

theorem pbSignInt_cons_other {c : Char} {l : List Char}
    (h1 : c ≠ '+') (h2 : c ≠ '-') : pbSignInt (c :: l) = 1 := by
  unfold pbSignInt
  split <;> simp_all

/-- The exact value of `enumFrom`-indexed fractional sums over a
final digit. -/
theorem fracVal_append_singleton (l : List Char) (c : Char) :
    fracVal (l ++ [c]) =
      fracVal l + (binDigit c : ℚ) * (2 : ℚ) ^ (-((l.length : ℤ) + 1)) := by
  unfold fracVal
  rw [List.enum_append, List.map_append, List.sum_append]
  simp

/-- Closed form of the claim's fractional sum: the fractional digits
read as a base-2 integer, divided by `2^length`. -/
theorem fracVal_eq (l : List Char) :
    fracVal l = (binToNat l : ℚ) / 2 ^ l.length := by
  induction l using List.reverseRecOn with
  | nil => simp [fracVal, binToNat]
  | append_singleton l c ih =>
    rw [fracVal_append_singleton, ih, binToNat_append_singleton,
      List.length_append, List.length_singleton]
    have hz : (2 : ℚ) ^ (-((l.length : ℤ) + 1)) =
        ((2 : ℚ) ^ (l.length + 1))⁻¹ := by
      rw [zpow_neg]
      norm_cast
    rw [hz]
    push_cast
    field_simp
    ring

/-- The claim's exact fractional sum is always below 1 (the digit
values are at most 1). -/
theorem fracVal_lt_one (l : List Char) : fracVal l < 1 := by
  rw [fracVal_eq, div_lt_one (by positivity)]
  exact_mod_cast binToNat_lt l

/-- On any well-formed `<int>.<frac>` body with an optional sign and a
non-empty fractional part, the float-level parser returns the sign
times the rounded addition of the converted integer part and the
accumulated fractional sum (lines 95–105). -/
theorem parse_bin_fp_dot (s0 i f : List Char)
    (hs : s0 = [] ∨ s0 = ['+'] ∨ s0 = ['-'])
    (hi : ∀ c ∈ i, isBinDigit c = true)
    (hf : ∀ c ∈ f, isBinDigit c = true)
    (hfne : f ≠ []) (xi : Fp)
    (hxi : pyFloatOfInt (binToNat i) = some xi) :
    parse_binary_fraction_fp (s0 ++ (i ++ '.' :: f)) =
      .ok (.floatVal (fpScale (if s0 = ['-'] then -1 else 1)
            (fpAdd xi (fpFracVal f)))) := by
  have hnw : ∀ c ∈ s0 ++ (i ++ '.' :: f), c.isWhitespace = false := by
    intro c hc
    rcases List.mem_append.mp hc with hc0 | hc1
    · rcases hs with rfl | rfl | rfl
      · cases hc0
      · rcases List.mem_singleton.mp hc0 with rfl; decide
      · rcases List.mem_singleton.mp hc0 with rfl; decide
    · rcases List.mem_append.mp hc1 with hci | hcf
      · exact isBinDigit_not_whitespace c (hi c hci)
      · rcases List.mem_cons.mp hcf with rfl | hcf2
        · decide
        · exact isBinDigit_not_whitespace c (hf c hcf2)
  have htrim := pytrim_eq_self hnw
  have hval_ne : s0 ++ (i ++ '.' :: f) ≠ [] := by
    rcases hs with rfl | rfl | rfl <;> simp
  have hrest : pbRest (s0 ++ (i ++ '.' :: f)) = i ++ '.' :: f := by
    rcases hs with rfl | rfl | rfl
    · rw [List.nil_append]
      cases i with
      | nil => exact pbRest_cons_other (by decide) (by decide)
      | cons c i2 =>
        rcases (isBinDigit_iff c).mp (hi c (List.mem_cons_self c i2)) with
          rfl | rfl
        · exact pbRest_cons_other (by decide) (by decide)
        · exact pbRest_cons_other (by decide) (by decide)
    · rfl
    · rfl
  have hsig : pbSignInt (s0 ++ (i ++ '.' :: f)) =
      (if s0 = ['-'] then (-1 : Int) else 1) := by
    rcases hs with rfl | rfl | rfl
    · rw [if_neg (by simp), List.nil_append]
      cases i with
      | nil => exact pbSignInt_cons_other (by decide) (by decide)
      | cons c i2 =>
        rcases (isBinDigit_iff c).mp (hi c (List.mem_cons_self c i2)) with
          rfl | rfl
        · exact pbSignInt_cons_other (by decide) (by decide)
        · exact pbSignInt_cons_other (by decide) (by decide)
    · rw [if_neg (by simp)]; rfl
    · rw [if_pos rfl]; rfl
  have hsplit : splitDots (i ++ '.' :: f) = [i, f] := by
    rw [splitDots_append_dot i f (fun c hc => isBinDigit_ne_dot c (hi c hc)),
      splitDots_no_dot f (fun c hc => isBinDigit_ne_dot c (hf c hc))]
  have hall : (i ++ f).all isBinDigit = true :=
    List.all_eq_true.mpr (fun c hc => by
      rcases List.mem_append.mp hc with h2 | h2
      exacts [hi c h2, hf c h2])
  unfold parse_binary_fraction_fp
  dsimp only
  rw [htrim, if_neg hval_ne, hrest, hsplit]
  dsimp only
  rw [if_pos hall, if_neg hfne, hxi]
  dsimp only
  rw [hsig]

/-- On any well-formed dotless `<int>` body with an optional sign, the
float-level parser returns the exact Python integer
`sign * (int_value + 0)`. -/
theorem parse_bin_fp_nodot (s0 i : List Char)
    (hs : s0 = [] ∨ s0 = ['+'] ∨ s0 = ['-']) (hne : i ≠ [])
    (hi : ∀ c ∈ i, isBinDigit c = true) :
    parse_binary_fraction_fp (s0 ++ i) =
      .ok (.intVal ((if s0 = ['-'] then (-1 : Int) else 1) *
           ((binToNat i : Int) + 0))) := by
  have hnw : ∀ c ∈ s0 ++ i, c.isWhitespace = false := by
    intro c hc
    rcases List.mem_append.mp hc with hc0 | hc1
    · rcases hs with rfl | rfl | rfl
      · cases hc0
      · rcases List.mem_singleton.mp hc0 with rfl; decide
      · rcases List.mem_singleton.mp hc0 with rfl; decide
    · exact isBinDigit_not_whitespace c (hi c hc1)
  have htrim := pytrim_eq_self hnw
  have hval_ne : s0 ++ i ≠ [] := by
    rcases hs with rfl | rfl | rfl <;> simp [hne]
  obtain ⟨c, i2, rfl⟩ : ∃ c i2, i = c :: i2 := by
    cases i with
    | nil => exact absurd rfl hne
    | cons c i2 => exact ⟨c, i2, rfl⟩
  have hrest : pbRest (s0 ++ c :: i2) = c :: i2 := by
    rcases hs with rfl | rfl | rfl
    · rw [List.nil_append]
      rcases (isBinDigit_iff c).mp (hi c (List.mem_cons_self c i2)) with
        rfl | rfl
      · exact pbRest_cons_other (by decide) (by decide)
      · exact pbRest_cons_other (by decide) (by decide)
    · rfl
    · rfl
  have hsig : pbSignInt (s0 ++ c :: i2) =
      (if s0 = ['-'] then (-1 : Int) else 1) := by
    rcases hs with rfl | rfl | rfl
    · rw [if_neg (by simp), List.nil_append]
      rcases (isBinDigit_iff c).mp (hi c (List.mem_cons_self c i2)) with
        rfl | rfl
      · exact pbSignInt_cons_other (by decide) (by decide)
      · exact pbSignInt_cons_other (by decide) (by decide)
    · rw [if_neg (by simp)]; rfl
    · rw [if_pos rfl]; rfl
  have hsplit : splitDots (c :: i2) = [c :: i2] :=
    splitDots_no_dot _ (fun x hx => isBinDigit_ne_dot x (hi x hx))
  have hall : (c :: i2).all isBinDigit = true :=
    List.all_eq_true.mpr hi
  unfold parse_binary_fraction_fp
  dsimp only
  rw [htrim, if_neg hval_ne, hrest, hsplit]
  dsimp only
  rw [if_pos hall, hsig]

theorem pb_plus : parse_binary_fraction ['+'] = .ok 0 := by
  simp +decide [parse_binary_fraction, pytrim, splitDots, binToNat, isBinDigit]

theorem pb_minus : parse_binary_fraction ['-'] = .ok 0 := by
  simp +decide [parse_binary_fraction, pytrim, splitDots, binToNat, isBinDigit]

/-! ## Claim C7 -/

/-- C7 (counterexample): the claim says the parser fails with
`InvalidFormat` on input `"+"` (empty after sign-stripping), but the
code checks emptiness only before sign-stripping, so `"+"` parses
successfully to `0`. -/
theorem C7_counterexample :
    parse_binary_fraction ['+'] = .ok 0 ∧
    parse_binary_fraction ['+'] ≠ .error .invalidFormat := by
  refine ⟨pb_plus, ?_⟩
  rw [pb_plus]
  simp

/-- C7 (amended): the binary-fraction parser fails with
`InvalidFormat` for every input that is empty (or whitespace-only)
**before** sign-stripping, and for every input containing — after the
optional leading sign — a character other than '0', '1', or '.'.
Inputs that are empty only after stripping a leading '+' or '-'
(such as `"+"` and `"-"`) are **accepted** and parse to 0. -/
theorem C7_invalid_format :
    (∀ l : List Char, pytrim l = [] →
       parse_binary_fraction l = .error .invalidFormat) ∧
    (parse_binary_fraction ['+'] = .ok 0 ∧
     parse_binary_fraction ['-'] = .ok 0) ∧
    (∀ l : List Char,
       (∃ c ∈ pbRest (pytrim l), c ≠ '0' ∧ c ≠ '1' ∧ c ≠ '.') →
       parse_binary_fraction l = .error .invalidFormat) := by
  refine ⟨?_, ⟨pb_plus, pb_minus⟩, ?_⟩
  · intro l h
    unfold parse_binary_fraction
    dsimp only
    rw [h]
    rfl
  · rintro l ⟨c, hcmem, h0, h1, hdot⟩
    unfold parse_binary_fraction
    dsimp only
    by_cases hempty : pytrim l = []
    · rw [hempty] at hcmem
      cases hcmem
    · rw [if_neg hempty]
      have hcbad : isBinDigit c = false := by
        simp [isBinDigit, h0, h1]
      have hnotall : ∀ L : List Char, c ∈ L → ¬(L.all isBinDigit = true) := by
        intro L hcL hall
        rw [List.all_eq_true.mp hall c hcL] at hcbad
        cases hcbad
      obtain ⟨p, hp, hcp⟩ := mem_splitDots _ c hcmem hdot
      cases hsd : splitDots (pbRest (pytrim l)) with
      | nil => exact absurd hsd (splitDots_ne_nil _)
      | cons q qs =>
        rw [hsd] at hp
        cases qs with
        | nil =>
          rcases List.mem_singleton.mp hp with rfl
          dsimp only
          rw [if_neg (hnotall p hcp)]
        | cons r rs =>
          cases rs with
          | nil =>
            dsimp only
            have hcqr : c ∈ q ++ r := by
              rcases List.mem_cons.mp hp with rfl | hp2
              · exact List.mem_append.mpr (Or.inl hcp)
              · rcases List.mem_singleton.mp hp2 with rfl
                exact List.mem_append.mpr (Or.inr hcp)
            rw [if_neg (hnotall _ hcqr)]
          | cons t ts =>
            rfl

/-- C7 (witness): `"12"` contains the character '2' and fails with
`InvalidFormat`. -/
theorem C7_witness :
    parse_binary_fraction ['1', '2'] = .error .invalidFormat := by
  refine C7_invalid_format.2.2 ['1', '2'] ?_
  exact ⟨'2', by decide, by decide, by decide, by decide⟩

/-! ## Claim C8 -/

/-- C8 (counterexample): the claim says the parser returns the exact
value `sign × (int part + Σ digit_i × 2^−(i+1))`, but the code
accumulates the fractional sum in binary64 floating point: on
`"0."` followed by 54 ones the exact sum `(2^54 − 1)/2^54` is strictly
below 1, yet the program returns exactly `1.0` (the accumulated value
`1 − 2^−54` is a round-to-nearest tie at the 53-bit precision boundary
and rounds up to the even significand `2^52 × 2^−52 = 1`). -/
theorem C8_counterexample :
    parse_binary_fraction_fp (['0', '.'] ++ List.replicate 54 '1') =
      .ok (.floatVal ⟨2 ^ 52, -52⟩) ∧
    Fp.toRat ⟨2 ^ 52, -52⟩ = 1 ∧
    fracVal (List.replicate 54 '1') < 1 := by
  refine ⟨by decide, by norm_num [Fp.toRat], fracVal_lt_one _⟩

/-- C8 (amended): for every well-formed signed fixed-point binary
string: with a dot and a non-empty fractional part, the parser returns
the binary64 float obtained by converting the base-2 integer part to
float and adding the left-to-right float accumulation of the terms
`digit_i × 2^−(i+1)` (each addition rounded to 53 significant bits,
ties to even) — not the exact rational sum; with no dot (or an empty
fractional part) it returns the exact Python `int`
`sign × (integer part in base 2)`; in particular `"101.011"` parses to
the float of exact value `43/8 = 5.375` (here the arithmetic is
exact). -/
theorem C8_float_value :
    (∀ s0 i f : List Char, (s0 = [] ∨ s0 = ['+'] ∨ s0 = ['-']) →
        (∀ c ∈ i, isBinDigit c = true) → (∀ c ∈ f, isBinDigit c = true) →
        f ≠ [] → ∀ xi : Fp, pyFloatOfInt (binToNat i) = some xi →
        parse_binary_fraction_fp (s0 ++ (i ++ '.' :: f)) =
          .ok (.floatVal (fpScale (if s0 = ['-'] then -1 else 1)
                (fpAdd xi (fpFracVal f))))) ∧
    (∀ s0 i : List Char, (s0 = [] ∨ s0 = ['+'] ∨ s0 = ['-']) → i ≠ [] →
        (∀ c ∈ i, isBinDigit c = true) →
        parse_binary_fraction_fp (s0 ++ i) =
          .ok (.intVal ((if s0 = ['-'] then (-1 : Int) else 1) *
               ((binToNat i : Int) + 0)))) ∧
    (parse_binary_fraction_fp ['1', '0', '1', '.', '0', '1', '1'] =
       .ok (.floatVal ⟨43, -3⟩) ∧
     Fp.toRat ⟨43, -3⟩ = 43 / 8) := by
  exact ⟨fun s0 i f hs hi hf hfne xi hxi =>
      parse_bin_fp_dot s0 i f hs hi hf hfne xi hxi,
    fun s0 i hs hne hi => parse_bin_fp_nodot s0 i hs hne hi,
    by decide, by norm_num [Fp.toRat]⟩

/-- C8 (witness): `"-1.1"` parses to the float `⟨-3, -1⟩`, whose exact
value is `-1.5` (exact here, since three significant bits fit in
binary64). -/
theorem C8_witness :
    parse_binary_fraction_fp ['-', '1', '.', '1'] =
      .ok (.floatVal ⟨-3, -1⟩) ∧ Fp.toRat ⟨-3, -1⟩ = -(3 / 2) := by
  constructor
  · have h := C8_float_value.1 ['-'] ['1'] ['1'] (Or.inr (Or.inr rfl))
      (by decide) (by decide) (by decide) ⟨1, 0⟩ (by decide)
    simp only [List.nil_append, List.cons_append] at h
    rw [h]
    decide
  · norm_num [Fp.toRat]

/-! ## Claim C10 -/

/-- C10 (counterexample): the acceptance of an empty integer part is
real, but the claim's value clause `sign × Σ frac_digit_i × 2^−(i+1)`
is not: on `"."` followed by 54 ones the exact sum `(2^54 − 1)/2^54`
is strictly below 1, yet the program returns exactly `1.0`, because
the sum is accumulated in binary64 floats and the final addition is a
tie rounded to even. -/
theorem C10_counterexample :
    parse_binary_fraction_fp ('.' :: List.replicate 54 '1') =
      .ok (.floatVal ⟨2 ^ 52, -52⟩) ∧
    Fp.toRat ⟨2 ^ 52, -52⟩ = 1 ∧
    fracVal (List.replicate 54 '1') < 1 := by
  refine ⟨by decide, by norm_num [Fp.toRat], fracVal_lt_one _⟩

/-- C10 (amended): the binary-fraction parser accepts inputs whose
integer part is empty when a dot is present: optional sign, then '.',
then non-empty binary fractional digits parse successfully — to the
binary64 float accumulation of `Σ frac_digit_i × 2^−(i+1)` (each
addition rounded to 53 significant bits, ties to even), not in general
the exact sum; e.g. `".101"` parses to the float of exact value
`5/8 = 0.625` (exact here). -/
theorem C10_accepts_empty_int :
    (∀ s0 f : List Char, (s0 = [] ∨ s0 = ['+'] ∨ s0 = ['-']) → f ≠ [] →
        (∀ c ∈ f, isBinDigit c = true) →
        parse_binary_fraction_fp (s0 ++ '.' :: f) =
          .ok (.floatVal (fpScale (if s0 = ['-'] then -1 else 1)
                (fpAdd ⟨0, 0⟩ (fpFracVal f))))) ∧
    (parse_binary_fraction_fp ['.', '1', '0', '1'] =
       .ok (.floatVal ⟨5, -3⟩) ∧
     Fp.toRat ⟨5, -3⟩ = 5 / 8) := by
  refine ⟨?_, by decide, by norm_num [Fp.toRat]⟩
  intro s0 f hs hfne hf
  have h := parse_bin_fp_dot s0 [] f hs (by simp) hf hfne ⟨0, 0⟩ (by decide)
  rw [List.nil_append] at h
  exact h

/-- C10 (witness): `"-.1"` parses to the float `⟨-1, -1⟩`, whose exact
value is `-0.5`. -/
theorem C10_witness :
    parse_binary_fraction_fp ['-', '.', '1'] =
      .ok (.floatVal ⟨-1, -1⟩) ∧ Fp.toRat ⟨-1, -1⟩ = -(1 / 2) := by
  constructor
  · have h := C10_accepts_empty_int.1 ['-'] ['1'] (Or.inr (Or.inr rfl))
      (by decide) (by decide)
    simp only [List.cons_append, List.nil_append] at h
    rw [h]
    decide
  · norm_num [Fp.toRat]

end IEEEApp
